import Mathlib

/-!
Shallow embedding of the CSS-value expression evaluator of
`responsive-text-width`.

Two variants appear in the source:
* `src/lib/evaluate-expression.ts` — `evaluateBasicMath` / `evaluateExpression`
  with the unsigned number tokenizer `/(\d*\.?\d+)|[()+\-*\/]/g`;
* the variant appended in `src/components/validated-input.tsx` — a signed
  tokenizer `/(-?\d*\.?\d+)|[()+\-*\/]/g` plus an explicit unary-minus folding
  pass.

JavaScript numbers are embedded as exact rationals with an explicit NaN value
(`none`).  `undefined` (the result of `Array.prototype.pop` on an empty array,
and of indexing `stack[0]` into an empty array) behaves identically to NaN in
every context the evaluator uses it (arithmetic yields NaN, `b === 0` is
false, `isNaN` is true), so it is conflated with NaN.  Exact rationals have no
overflow, so the source's `isFinite` guard has nothing to reject in the model;
the `isNaN` guard is modelled faithfully.
-/

namespace RTW

/-- A JavaScript number: `some q` is the (exact) value `q`, `none` is NaN
(also standing for `undefined`, which the evaluator only ever uses in
NaN-equivalent ways). -/
abbrev JSNum := Option ℚ

/-- Characters removed by `expr.replace(/\s+/g, '')` and trimmed by
`String.prototype.trim` (the ASCII ones; the claims' inputs use only these). -/
def isJSWhitespace (c : Char) : Bool :=
  c == ' ' || c == '\t' || c == '\n' || c == '\r' || c == '\x0b' || c == '\x0c'

/-- Characters matched by the unit regex `/[a-z%]+$/i`. -/
def isUnitChar (c : Char) : Bool := c.isAlpha || c == '%'

/-- `expr.replace(/\s+/g, '')`. -/
def stripWS (l : List Char) : List Char := l.filter (fun c => !isJSWhitespace c)

/-- `expr.trim()`. -/
def jsTrim (l : List Char) : List Char :=
  ((l.dropWhile isJSWhitespace).reverse.dropWhile isJSWhitespace).reverse

/-- The characters matched by `expr.match(/([a-z%]+)$/i)`: the maximal
trailing run of letters / `%`. -/
def unitRun (l : List Char) : List Char := (l.reverse.takeWhile isUnitChar).reverse

/-- `expr.replace(/[a-z%]+$/i, '')`: the expression with the trailing
unit run removed (identical to the validated-input variant's
`expr.slice(0, unitMatch.index)`, which removes the same span). -/
def mathPart (l : List Char) : List Char := (l.reverse.dropWhile isUnitChar).reverse

/-- Tokens produced by the tokenizer regexes.  `num v signed` is a numeric
lexeme with value `v`; `signed` records whether the lexeme begins with `-`
(possible only for the validated-input variant's regex).  `junk` is a combined
token such as `"--5"` built by the unary-minus folding pass: it is not
numeric (`Number` gives NaN), has no precedence entry, and matches no `switch`
case of the postfix evaluator. -/
inductive Tok where
  | num (v : ℚ) (signed : Bool)
  | lparen
  | rparen
  | add
  | sub
  | mul
  | div
  | junk
deriving DecidableEq, Repr

/-- The `!isNaN(Number(token))` test of the source, as a token classifier:
only numeric lexemes pass it. -/
def Tok.isNum : Tok → Bool
  | Tok.num _ _ => true
  | _ => false

/-- Classifier for the four arithmetic operator tokens. -/
def Tok.isArith : Tok → Bool
  | Tok.add => true
  | Tok.sub => true
  | Tok.mul => true
  | Tok.div => true
  | _ => false

/-- Numeric value of a digit list (most significant digit first). -/
def digitsVal (ds : List Char) : ℕ :=
  ds.foldl (fun a c => 10 * a + (c.toNat - '0'.toNat)) 0

/-- Value of a numeric lexeme with integer digits `d1` and fraction digits `d2`
(`Number("d1.d2")`, exact in the rational model).  Written with `mkRat` so
that it evaluates by kernel reduction; `lexVal_eq` gives the usual form. -/
def lexVal (d1 d2 : List Char) : ℚ :=
  mkRat (digitsVal d1 * 10 ^ d2.length + digitsVal d2 : ℕ) (10 ^ d2.length)

theorem lexVal_eq (d1 d2 : List Char) :
    lexVal d1 d2 = (digitsVal d1 : ℚ) + (digitsVal d2 : ℚ) / 10 ^ d2.length := by
  rw [lexVal, Rat.mkRat_eq_div]
  have h10 : ((10 : ℚ) ^ d2.length) ≠ 0 := by positivity
  push_cast
  field_simp

/-- Matching `\.\d+` at the head of `r1` (the optional fraction part of the
number regex, which participates only when at least one digit follows the
dot): returns the fraction digits and the remaining characters. -/
def lexFrac : List Char → Option (List Char × List Char)
  | [] => none
  | c :: cs =>
    if c = '.' then
      match cs with
      | [] => none
      | c2 :: r2 =>
        if c2.isDigit then
          some ((c2 :: r2).takeWhile Char.isDigit, (c2 :: r2).dropWhile Char.isDigit)
        else none
    else none

/-- Matching the regex alternative `\d*\.?\d+` at the head of `l` (greedy,
with backtracking): returns the value of the matched lexeme and the remaining
characters, or `none` when the alternative does not match at this position. -/
def lexNum : List Char → Option (ℚ × List Char)
  | [] => none
  | c :: cs =>
    if c.isDigit then
      let d1 := (c :: cs).takeWhile Char.isDigit
      let r1 := (c :: cs).dropWhile Char.isDigit
      match lexFrac r1 with
      | some (d2, r2) => some (lexVal d1 d2, r2)
      | none => some (lexVal d1 [], r1)
    else if c = '.' then
      match lexFrac (c :: cs) with
      | some (d2, r2) => some (lexVal [] d2, r2)
      | none => none
    else none

theorem dropWhile_length_le (p : Char → Bool) (l : List Char) :
    (l.dropWhile p).length ≤ l.length := by
  induction l with
  | nil => simp [List.dropWhile]
  | cons c cs ih =>
    by_cases h : p c
    · simp only [List.dropWhile, h]
      exact Nat.le_succ_of_le ih
    · simp [List.dropWhile, h]

theorem lexFrac_length_lt {l d2 r2} (h : lexFrac l = some (d2, r2)) :
    r2.length < l.length := by
  match l with
  | [] => simp [lexFrac] at h
  | c :: cs =>
    simp only [lexFrac] at h
    by_cases hc : c = '.'
    · simp only [hc, if_pos] at h
      match cs with
      | [] => simp at h
      | c2 :: r2' =>
        by_cases h2 : c2.isDigit
        · simp only [h2, if_pos] at h
          have h' := (Option.some.injEq _ _).mp h
          have hr : r2 = (c2 :: r2').dropWhile Char.isDigit := (Prod.mk.injEq .. ▸ h').2.symm
          have := dropWhile_length_le Char.isDigit (c2 :: r2')
          rw [hr]
          simp only [List.length_cons] at this ⊢
          omega
        · simp [h2] at h
    · simp [hc] at h

theorem lexNum_length_lt {l : List Char} {v : ℚ} {r : List Char}
    (h : lexNum l = some (v, r)) : r.length < l.length := by
  match l with
  | [] => simp [lexNum] at h
  | c :: cs =>
    simp only [lexNum] at h
    by_cases hd : c.isDigit
    · simp only [hd, if_pos] at h
      have hdrop : ((c :: cs).dropWhile Char.isDigit).length ≤ cs.length := by
        simp only [List.dropWhile, hd]
        exact dropWhile_length_le Char.isDigit cs
      revert h
      match hfrac : lexFrac ((c :: cs).dropWhile Char.isDigit) with
      | some (d2, r2) =>
        intro h
        have h' := (Option.some.injEq _ _).mp h
        have hr : r = r2 := (Prod.mk.injEq .. ▸ h').2.symm
        have := lexFrac_length_lt hfrac
        rw [hr]
        simp only [List.length_cons]
        omega
      | none =>
        intro h
        have h' := (Option.some.injEq _ _).mp h
        have hr : r = (c :: cs).dropWhile Char.isDigit := (Prod.mk.injEq .. ▸ h').2.symm
        rw [hr]
        simp only [List.length_cons]
        omega
    · simp only [hd, Bool.false_eq_true, if_neg, not_false_iff] at h
      by_cases hc : c = '.'
      · simp only [hc, if_pos] at h
        revert h
        match hfrac : lexFrac ('.' :: cs) with
        | some (d2, r2) =>
          intro h
          have h' := (Option.some.injEq _ _).mp h
          have hr : r = r2 := (Prod.mk.injEq .. ▸ h').2.symm
          have := lexFrac_length_lt hfrac
          rw [hr]
          simp only [List.length_cons] at this ⊢
          omega
        | none => intro h; simp at h
      · simp [hc] at h

/-- Fuelled scanning loop of the tokenizer of `src/lib/evaluate-expression.ts`:
`expr.match(/(\d*\.?\d+)|[()+\-*\/]/g)`.  Characters matching neither
alternative are skipped (a global regex match simply does not include them).
Each step consumes at least one character, so fuel `l.length` always
suffices (`tokenizeLibF_congr`). -/
def tokenizeLibF : ℕ → List Char → List Tok
  | 0, _ => []
  | _, [] => []
  | fuel + 1, c :: cs =>
    match lexNum (c :: cs) with
    | some (v, r) => Tok.num v false :: tokenizeLibF fuel r
    | none =>
      if c = '(' then Tok.lparen :: tokenizeLibF fuel cs
      else if c = ')' then Tok.rparen :: tokenizeLibF fuel cs
      else if c = '+' then Tok.add :: tokenizeLibF fuel cs
      else if c = '-' then Tok.sub :: tokenizeLibF fuel cs
      else if c = '*' then Tok.mul :: tokenizeLibF fuel cs
      else if c = '/' then Tok.div :: tokenizeLibF fuel cs
      else tokenizeLibF fuel cs

/-- The tokenizer of `src/lib/evaluate-expression.ts`. -/
def tokenizeLib (l : List Char) : List Tok := tokenizeLibF l.length l

/-- Fuelled scanning loop of the tokenizer of the validated-input variant:
`expr.match(/(-?\d*\.?\d+)|[()+\-*\/]/g)`.  At a `-` the signed number
alternative is tried first (consuming the `-`); if no number follows, the
regex backtracks and the `-` is produced as an operator token. -/
def tokenizeVF : ℕ → List Char → List Tok
  | 0, _ => []
  | _, [] => []
  | fuel + 1, c :: cs =>
    if c = '-' then
      match lexNum cs with
      | some (v, r) => Tok.num (-v) true :: tokenizeVF fuel r
      | none => Tok.sub :: tokenizeVF fuel cs
    else
      match lexNum (c :: cs) with
      | some (v, r) => Tok.num v false :: tokenizeVF fuel r
      | none =>
        if c = '(' then Tok.lparen :: tokenizeVF fuel cs
        else if c = ')' then Tok.rparen :: tokenizeVF fuel cs
        else if c = '+' then Tok.add :: tokenizeVF fuel cs
        else if c = '*' then Tok.mul :: tokenizeVF fuel cs
        else if c = '/' then Tok.div :: tokenizeVF fuel cs
        else tokenizeVF fuel cs

/-- The tokenizer of the validated-input variant. -/
def tokenizeV (l : List Char) : List Tok := tokenizeVF l.length l

/-- The previous-token test of the unary-minus folding pass:
`i === 0 || ["(", "+", "-", "*", "/"].includes(tokens[i - 1])`. -/
def prevTriggers : Option Tok → Bool
  | none => true
  | some Tok.lparen => true
  | some Tok.add => true
  | some Tok.sub => true
  | some Tok.mul => true
  | some Tok.div => true
  | some _ => false

/-- The unary-minus folding pass of the validated-input variant: a `-` token
followed by a numeric token is combined into a single token (`"-" +
tokens[i+1]`) when the previous original token is absent or one of
`( + - * /`.  Combining with an already signed lexeme (e.g. `"-5"`) yields
the non-numeric token `"--5"`, i.e. `junk`.  The combined pair is consumed,
and the following iteration sees the consumed numeric token as its
predecessor. -/
def foldUnary : Option Tok → List Tok → List Tok
  | _, [] => []
  | _, [Tok.sub] => [Tok.sub]
  | prev, Tok.sub :: Tok.num v s :: rest2 =>
    if prevTriggers prev then
      (if s then Tok.junk else Tok.num (-v) true) :: foldUnary (some (Tok.num v s)) rest2
    else
      Tok.sub :: Tok.num v s :: foldUnary (some (Tok.num v s)) rest2
  | _, Tok.sub :: t :: rest =>
    Tok.sub :: foldUnary (some Tok.sub) (t :: rest)
  | prev, t :: rest => t :: foldUnary (some t) rest

/-- `OPERATOR_PRECEDENCE[token]`: `undefined` (`none`) for anything that is
not one of the four arithmetic operators. -/
def precOf : Tok → Option ℕ
  | Tok.add => some 1
  | Tok.sub => some 1
  | Tok.mul => some 2
  | Tok.div => some 2
  | _ => none

/-- `precedence[top] >= precedence[incoming]` — any comparison involving
`undefined` is false. -/
def precGe (top incoming : Tok) : Bool :=
  match precOf top, precOf incoming with
  | some a, some b => decide (b ≤ a)
  | _, _ => false

/-- The pop loop of the operator branch: pop while the stack top is not `(`
and has precedence ≥ the incoming operator.  Returns the popped tokens (in
pop order) and the remaining stack; the popped tokens are a prefix of the
stack. -/
def popWhileGe (incoming : Tok) : List Tok → List Tok × List Tok
  | [] => ([], [])
  | top :: rest =>
    if top ≠ Tok.lparen ∧ precGe top incoming = true then
      ((popWhileGe incoming rest).1.cons top, (popWhileGe incoming rest).2)
    else ([], top :: rest)

/-- The pop loop of the `)` branch: pop to output until the stack top is `(`
(or the stack is exhausted). -/
def popToLParen : List Tok → List Tok × List Tok
  | [] => ([], [])
  | top :: rest =>
    if top = Tok.lparen then ([], top :: rest)
    else ((popToLParen rest).1.cons top, (popToLParen rest).2)

/-- The shunting-yard loop plus the final drain.  `out` is the output queue
(in order), `ops` the operator stack with its head the top.  After `)` pops to
a `(`, `operators.pop()` removes the `(` when present (`List.drop 1`; popping
an empty stack is a no-op, as in JavaScript). -/
def shunt : List Tok → List Tok → List Tok → List Tok
  | [], out, ops => out ++ ops
  | t :: ts, out, ops =>
    match t with
    | Tok.num v s => shunt ts (out ++ [Tok.num v s]) ops
    | Tok.lparen => shunt ts out (Tok.lparen :: ops)
    | Tok.rparen => shunt ts (out ++ (popToLParen ops).1) ((popToLParen ops).2.drop 1)
    | op => shunt ts (out ++ (popWhileGe op ops).1) (op :: (popWhileGe op ops).2)

/-- Result of the postfix evaluation loop: an exception was thrown
(division by zero), or the loop finished with a final stack. -/
inductive RPNRes where
  | thrown
  | done (stack : List JSNum)
deriving DecidableEq, Repr

/-- `stack.pop()`: popping an empty JS array yields `undefined` (conflated
with NaN). -/
def popJS : List JSNum → JSNum × List JSNum
  | [] => (none, [])
  | x :: xs => (x, xs)

/-- Rational addition written with `mkRat` so that it evaluates by kernel
reduction (`Rat.add` itself is `@[irreducible]`); `qAdd_eq` shows it is
ordinary addition.  Likewise for `qSub`, `qMul`, `qDiv`. -/
def qAdd (a b : ℚ) : ℚ := mkRat (a.num * b.den + b.num * a.den) (a.den * b.den)

def qSub (a b : ℚ) : ℚ := mkRat (a.num * b.den - b.num * a.den) (a.den * b.den)

def qMul (a b : ℚ) : ℚ := mkRat (a.num * b.num) (a.den * b.den)

def qDiv (a b : ℚ) : ℚ := mkRat (a.num * b.den * b.num) (a.den * (b.num.natAbs * b.num.natAbs))

theorem qAdd_eq (a b : ℚ) : qAdd a b = a + b := by
  rw [qAdd, Rat.mkRat_eq_div]
  have ha : ((a.den : ℚ)) ≠ 0 := by exact_mod_cast a.den_nz
  have hb : ((b.den : ℚ)) ≠ 0 := by exact_mod_cast b.den_nz
  conv_rhs => rw [← Rat.num_div_den a, ← Rat.num_div_den b]
  push_cast
  field_simp

theorem qSub_eq (a b : ℚ) : qSub a b = a - b := by
  rw [qSub, Rat.mkRat_eq_div]
  have ha : ((a.den : ℚ)) ≠ 0 := by exact_mod_cast a.den_nz
  have hb : ((b.den : ℚ)) ≠ 0 := by exact_mod_cast b.den_nz
  conv_rhs => rw [← Rat.num_div_den a, ← Rat.num_div_den b]
  push_cast
  field_simp
  ring

theorem qMul_eq (a b : ℚ) : qMul a b = a * b := by
  rw [qMul, Rat.mkRat_eq_div]
  have ha : ((a.den : ℚ)) ≠ 0 := by exact_mod_cast a.den_nz
  have hb : ((b.den : ℚ)) ≠ 0 := by exact_mod_cast b.den_nz
  conv_rhs => rw [← Rat.num_div_den a, ← Rat.num_div_den b]
  push_cast
  rw [div_mul_div_comm]

theorem qDiv_eq (a b : ℚ) : qDiv a b = a / b := by
  rw [qDiv, Rat.mkRat_eq_div]
  by_cases hb : b = 0
  · subst hb; simp
  · have hbn : b.num ≠ 0 := Rat.num_ne_zero.mpr hb
    have ha : ((a.den : ℚ)) ≠ 0 := by exact_mod_cast a.den_nz
    have hbd : ((b.den : ℚ)) ≠ 0 := by exact_mod_cast b.den_nz
    have hbq : ((b.num : ℚ)) ≠ 0 := by exact_mod_cast hbn
    have habs : ((b.num.natAbs : ℚ)) ≠ 0 := by
      simpa using fun h => hbn (Int.natAbs_eq_zero.mp h)
    have key : ((b.num.natAbs : ℚ)) * ((b.num.natAbs : ℚ)) = (b.num : ℚ) * (b.num : ℚ) := by
      simp only [Int.cast_natAbs, Int.cast_abs]
      exact abs_mul_abs_self ((b.num : ℚ))
    conv_rhs => rw [← Rat.num_div_den a, ← Rat.num_div_den b]
    rw [div_eq_mul_inv ((a.num : ℚ) / a.den), inv_div, div_mul_div_comm]
    push_cast
    rw [div_eq_div_iff (by positivity) (by
      apply mul_ne_zero ha hbq)]
    rw [mul_assoc ((a.num : ℚ)) ((b.den : ℚ)), mul_comm ((a.den : ℚ))]
    ring_nf
    rw [show ((b.num.natAbs : ℚ)) ^ 2 = ((b.num.natAbs : ℚ)) * ((b.num.natAbs : ℚ)) from sq
      ((b.num.natAbs : ℚ)), key]
    ring

def jsAdd : JSNum → JSNum → JSNum
  | some a, some b => some (qAdd a b)
  | _, _ => none

def jsSub : JSNum → JSNum → JSNum
  | some a, some b => some (qSub a b)
  | _, _ => none

def jsMul : JSNum → JSNum → JSNum
  | some a, some b => some (qMul a b)
  | _, _ => none

def jsDiv : JSNum → JSNum → JSNum
  | some a, some b => some (qDiv a b)
  | _, _ => none

/-- One non-numeric step of the postfix loop: pop `b` then `a`, then switch on
the token.  `none` models the `Division by zero` throw.  A token that matches
no `switch` case (`(`, `)` if it could occur, or `junk`) pushes nothing. -/
def binStep (t : Tok) (st : List JSNum) : Option (List JSNum) :=
  let b := (popJS st).1
  let st1 := (popJS st).2
  let a := (popJS st1).1
  let st2 := (popJS st1).2
  match t with
  | Tok.add => some (jsAdd a b :: st2)
  | Tok.sub => some (jsSub a b :: st2)
  | Tok.mul => some (jsMul a b :: st2)
  | Tok.div => if b = some 0 then none else some (jsDiv a b :: st2)
  | _ => some st2

/-- The postfix evaluation loop. -/
def evalRPN : List Tok → List JSNum → RPNRes
  | [], st => RPNRes.done st
  | t :: ts, st =>
    match t with
    | Tok.num v _ => evalRPN ts (some v :: st)
    | _ =>
      match binStep t st with
      | none => RPNRes.thrown
      | some st' => evalRPN ts st'

/-- `stack[0]` of the final stack: the element pushed first (the bottom); on
an empty stack, `undefined` (conflated with NaN).  The model stack has its
head as the top, so this is the last element. -/
def jsElem0 (st : List JSNum) : JSNum :=
  match st.getLast? with
  | some v => v
  | none => none

/-- The postfix token queue `evaluateBasicMath` of
`src/lib/evaluate-expression.ts` builds for an already-unit-stripped string:
whitespace removal, tokenization, then shunting yard. -/
def postfixLib (l : List Char) : List Tok :=
  shunt (tokenizeLib (stripWS l)) [] []

/-- The postfix token queue of the validated-input variant: whitespace
removal, signed tokenization, unary-minus folding, then shunting yard. -/
def postfixV (l : List Char) : List Tok :=
  shunt (foldUnary none (tokenizeV (stripWS l))) [] []

/-- `evaluateBasicMath` of `src/lib/evaluate-expression.ts` on an
already-unit-stripped string: `none` models a thrown exception, `some v` the
returned JS number (which may itself be NaN). -/
def evaluateBasicMath (l : List Char) : Option JSNum :=
  match evalRPN (postfixLib l) [] with
  | RPNRes.thrown => none
  | RPNRes.done st => some (jsElem0 st)

/-- `evaluateBasicMath` of the validated-input variant (signed tokenizer and
unary-minus folding; shunting yard and postfix evaluation are identical). -/
def evaluateBasicMathV (l : List Char) : Option JSNum :=
  match evalRPN (postfixV l) [] with
  | RPNRes.thrown => none
  | RPNRes.done st => some (jsElem0 st)

/-- `true` iff the run of the postfix evaluation loop on these tokens ever
executes one of the four arithmetic operators with fewer than two operands on
the stack (so that some `stack.pop()` yields `undefined`).  The recursion
mirrors `evalRPN` step by step and stops where the run throws. -/
def hasUnderflow : List Tok → List JSNum → Bool
  | [], _ => false
  | t :: ts, st =>
    match t with
    | Tok.num v _ => hasUnderflow ts (some v :: st)
    | Tok.add | Tok.sub | Tok.mul | Tok.div =>
      if st.length < 2 then true
      else
        match binStep t st with
        | none => false
        | some st' => hasUnderflow ts st'
    | _ =>
      match binStep t st with
      | none => false
      | some st' => hasUnderflow ts st'

/-- Decimal digits of `n`, least significant first, computed with fuel
(`natDigitsRevF n n` is correct, see `digitsVal_natStr`). -/
def natDigitsRevF : ℕ → ℕ → List Char
  | 0, _ => []
  | fuel + 1, n => if n = 0 then [] else Char.ofNat (48 + n % 10) :: natDigitsRevF fuel (n / 10)

/-- The ordinary decimal rendering of a natural number (`(10).toString()`
style: no sign, no leading zeros, `"0"` for zero). -/
def natStr (n : ℕ) : List Char :=
  if n = 0 then ['0'] else (natDigitsRevF n n).reverse

/-- Fixed-width decimal rendering: the `k` low decimal digits of `r`, most
significant first, zero-padded to width `k`. -/
def padDigits : ℕ → ℕ → List Char
  | 0, _ => []
  | k + 1, r => padDigits k (r / 10) ++ [Char.ofNat (48 + r % 10)]

/-- A decimal rendering of the nonnegative rational `m / 10 ^ k`: the integer
part in ordinary decimal followed, when `k > 0`, by a point and the `k`
fraction digits.  (`(1.5).toString() = "1.5"` corresponds to `decChars 15 1 =
"1.5"`; the rendering may keep trailing zeros, which JavaScript's `toString`
drops — the claims only compare re-parsed values, which agree.) -/
def decChars (m k : ℕ) : List Char :=
  if k = 0 then natStr m else natStr (m / 10 ^ k) ++ '.' :: padDigits k (m % 10 ^ k)

/-- The result record `{ value, unit }`.  The unit is kept as the raw string
the source produces (the TypeScript `as Unit` cast performs no runtime
check). -/
structure ValueWithUnit where
  value : JSNum
  unit : String
deriving DecidableEq, Repr

/-- Result of `evaluateExpression`: a value, or the single error kind
(`throw new Error('Invalid expression')`). -/
inductive EvalResult where
  | ok (v : ValueWithUnit)
  | invalidExpression
deriving DecidableEq, Repr

/-- The try/catch plus `isNaN`/`isFinite` guards of `evaluateExpression`:
a thrown exception or a NaN result becomes `invalidExpression` (exact
rationals cannot be infinite, so the `isFinite` guard is vacuous in the
model). -/
def wrapResult (r : Option JSNum) (u : String) : EvalResult :=
  match r with
  | none => EvalResult.invalidExpression
  | some none => EvalResult.invalidExpression
  | some (some q) => EvalResult.ok ⟨some q, u⟩

/-- `(unitMatch?.[1] || 'none')`. -/
def unitName (u : List Char) : String :=
  if u = [] then "none" else u.asString

/-- `evaluateExpression` of `src/lib/evaluate-expression.ts`, on the
character list of the input string. -/
def evaluateExpressionL (l : List Char) : EvalResult :=
  wrapResult (evaluateBasicMath (mathPart (jsTrim l))) (unitName (unitRun (jsTrim l)))

/-- `evaluateExpression` of `src/lib/evaluate-expression.ts`. -/
def evaluateExpression (s : String) : EvalResult :=
  evaluateExpressionL s.data

/-- `evaluateExpression` of the validated-input variant, on the character
list of the input string. -/
def evaluateExpressionVL (l : List Char) : EvalResult :=
  wrapResult (evaluateBasicMathV (mathPart (jsTrim l))) (unitName (unitRun (jsTrim l)))

/-- `evaluateExpression` of the validated-input variant. -/
def evaluateExpressionV (s : String) : EvalResult :=
  evaluateExpressionVL s.data

/-! ### General lemmas about the embedding -/

theorem mem_takeWhile_p {p : Char → Bool} {l : List Char} {x : Char}
    (h : x ∈ l.takeWhile p) : p x = true := by
  induction l with
  | nil => simp [List.takeWhile] at h
  | cons c cs ih =>
    by_cases hc : p c
    · rw [List.takeWhile_cons_of_pos hc] at h
      rcases List.mem_cons.mp h with rfl | h2
      · exact hc
      · exact ih h2
    · rw [List.takeWhile_cons_of_neg hc] at h
      simp at h

theorem dropWhile_head_not {p : Char → Bool} {l : List Char} {c : Char} {cs : List Char}
    (h : l.dropWhile p = c :: cs) : p c = false := by
  induction l with
  | nil => simp [List.dropWhile] at h
  | cons a as ih =>
    by_cases ha : p a
    · rw [List.dropWhile_cons_of_pos ha] at h
      exact ih h
    · rw [List.dropWhile_cons_of_neg ha] at h
      cases h
      exact Bool.eq_false_iff.mpr ha

theorem wrapResult_ok {r : Option JSNum} {u : String} {v : ValueWithUnit}
    (h : wrapResult r u = EvalResult.ok v) :
    ∃ q : ℚ, r = some (some q) ∧ v = ⟨some q, u⟩ := by
  match r with
  | none => simp [wrapResult] at h
  | some none => simp [wrapResult] at h
  | some (some q) =>
    refine ⟨q, rfl, ?_⟩
    have := (EvalResult.ok.injEq _ _).mp h
    exact this.symm

theorem mathPart_append_unitRun (l : List Char) : mathPart l ++ unitRun l = l := by
  rw [mathPart, unitRun, ← List.reverse_append, List.takeWhile_append_dropWhile,
    List.reverse_reverse]

theorem mem_unitRun {l : List Char} {c : Char} (h : c ∈ unitRun l) : isUnitChar c = true := by
  rw [unitRun] at h
  exact mem_takeWhile_p (List.mem_reverse.mp h)

theorem evalRPN_cons_op {t : Tok} (h : t.isNum = false) (ts : List Tok) (st : List JSNum) :
    evalRPN (t :: ts) st =
      match binStep t st with
      | none => RPNRes.thrown
      | some st' => evalRPN ts st' := by
  cases t <;> first
    | rfl
    | simp [Tok.isNum] at h

theorem evalRPN_append (a b : List Tok) (st : List JSNum) :
    evalRPN (a ++ b) st =
      match evalRPN a st with
      | RPNRes.thrown => RPNRes.thrown
      | RPNRes.done st' => evalRPN b st' := by
  induction a generalizing st with
  | nil => rfl
  | cons t ts ih =>
    by_cases hn : t.isNum = true
    · match t, hn with
      | Tok.num v s, _ =>
        show evalRPN (ts ++ b) (some v :: st) = _
        rw [ih]
        rfl
    · rw [Bool.not_eq_true] at hn
      rw [List.cons_append, evalRPN_cons_op hn, evalRPN_cons_op hn]
      cases binStep t st with
      | none => rfl
      | some st' => exact ih st'

theorem lexFrac_subset {l d2 r2} (h : lexFrac l = some (d2, r2)) : ∀ x ∈ r2, x ∈ l := by
  match l with
  | [] => simp [lexFrac] at h
  | c :: cs =>
    simp only [lexFrac] at h
    by_cases hc : c = '.'
    · simp only [hc, if_pos] at h
      match cs with
      | [] => simp at h
      | c2 :: r2' =>
        by_cases h2 : c2.isDigit
        · simp only [h2, if_pos] at h
          have h' := (Option.some.injEq _ _).mp h
          have hr : r2 = (c2 :: r2').dropWhile Char.isDigit := (Prod.mk.injEq .. ▸ h').2.symm
          intro x hx
          rw [hr] at hx
          exact List.mem_cons_of_mem _ ((List.dropWhile_sublist _).subset hx)
        · simp [h2] at h
    · simp [hc] at h

theorem lexNum_subset {l : List Char} {v : ℚ} {r : List Char}
    (h : lexNum l = some (v, r)) : ∀ x ∈ r, x ∈ l := by
  match l with
  | [] => simp [lexNum] at h
  | c :: cs =>
    simp only [lexNum] at h
    by_cases hd : c.isDigit
    · simp only [hd, if_pos] at h
      revert h
      match hfrac : lexFrac ((c :: cs).dropWhile Char.isDigit) with
      | some (d2, r2) =>
        intro h
        have h' := (Option.some.injEq _ _).mp h
        have hr : r = r2 := (Prod.mk.injEq .. ▸ h').2.symm
        intro x hx
        rw [hr] at hx
        exact (List.dropWhile_sublist _).subset (lexFrac_subset hfrac x hx)
      | none =>
        intro h
        have h' := (Option.some.injEq _ _).mp h
        have hr : r = (c :: cs).dropWhile Char.isDigit := (Prod.mk.injEq .. ▸ h').2.symm
        intro x hx
        rw [hr] at hx
        exact (List.dropWhile_sublist _).subset hx
    · simp only [hd, Bool.false_eq_true, if_neg, not_false_iff] at h
      by_cases hc : c = '.'
      · simp only [hc, if_pos] at h
        revert h
        match hfrac : lexFrac ('.' :: cs) with
        | some (d2, r2) =>
          intro h
          have h' := (Option.some.injEq _ _).mp h
          have hr : r = r2 := (Prod.mk.injEq .. ▸ h').2.symm
          intro x hx
          rw [hr] at hx
          have := lexFrac_subset hfrac x hx
          rwa [← hc] at this
        | none => intro h; simp at h
      · simp [hc] at h

theorem tokenizeF_eq_of_no_minus :
    ∀ (fuel : ℕ) (l : List Char), (∀ c ∈ l, c ≠ '-') →
      tokenizeVF fuel l = tokenizeLibF fuel l := by
  intro fuel
  induction fuel with
  | zero => intro l h; cases l <;> rfl
  | succ fuel ih =>
    intro l h
    match l with
    | [] => rfl
    | c :: cs =>
      have hc : c ≠ '-' := h c (List.mem_cons_self ..)
      have hsub : ∀ c' ∈ cs, c' ≠ '-' := fun c' hc' => h c' (List.mem_cons_of_mem _ hc')
      rw [tokenizeVF, tokenizeLibF, if_neg hc]
      cases hlex : lexNum (c :: cs) with
      | some vr =>
        obtain ⟨v, r⟩ := vr
        have hr : ∀ c' ∈ r, c' ≠ '-' := fun c' hc' => h c' (lexNum_subset hlex c' hc')
        dsimp only
        rw [ih r hr]
      | none =>
        dsimp only
        rw [ih cs hsub, if_neg hc]

theorem tokenizeLibF_no_sub :
    ∀ (fuel : ℕ) (l : List Char), (∀ c ∈ l, c ≠ '-') →
      Tok.sub ∉ tokenizeLibF fuel l := by
  intro fuel
  induction fuel with
  | zero => intro l h; simp [tokenizeLibF]
  | succ fuel ih =>
    intro l h
    match l with
    | [] => simp [tokenizeLibF]
    | c :: cs =>
      have hc : c ≠ '-' := h c (List.mem_cons_self ..)
      have hsub : ∀ c' ∈ cs, c' ≠ '-' := fun c' hc' => h c' (List.mem_cons_of_mem _ hc')
      rw [tokenizeLibF]
      cases hlex : lexNum (c :: cs) with
      | some vr =>
        obtain ⟨v, r⟩ := vr
        have hr : ∀ c' ∈ r, c' ≠ '-' := fun c' hc' => h c' (lexNum_subset hlex c' hc')
        intro hmem
        rcases List.mem_cons.mp hmem with heq | hm
        · exact Tok.noConfusion heq
        · exact ih r hr hm
      | none =>
        split_ifs with h1 h2 h3 h4 h5 h6 <;>
          first
          | exact absurd h4 hc
          | (intro hmem
             rcases List.mem_cons.mp hmem with heq | hm
             · exact Tok.noConfusion heq
             · exact ih cs hsub hm)
          | exact ih cs hsub

theorem foldUnary_no_sub : ∀ (prev : Option Tok) (l : List Tok),
    Tok.sub ∉ l → foldUnary prev l = l := by
  intro prev l
  induction l generalizing prev with
  | nil => intro _; rfl
  | cons t rest ih =>
    intro h
    have ht : t ≠ Tok.sub := fun heq => h (heq ▸ List.mem_cons_self ..)
    have hrest : Tok.sub ∉ rest := fun hm => h (List.mem_cons_of_mem _ hm)
    cases t with
    | num v s => rw [foldUnary, ih _ hrest] <;> simp
    | lparen => rw [foldUnary, ih _ hrest] <;> simp
    | rparen => rw [foldUnary, ih _ hrest] <;> simp
    | add => rw [foldUnary, ih _ hrest] <;> simp
    | sub => exact absurd rfl ht
    | mul => rw [foldUnary, ih _ hrest] <;> simp
    | div => rw [foldUnary, ih _ hrest] <;> simp
    | junk => rw [foldUnary, ih _ hrest] <;> simp

theorem mem_stripWS {l : List Char} {c : Char} (h : c ∈ stripWS l) : c ∈ l :=
  (List.mem_filter.mp h).1

theorem mem_jsTrim {l : List Char} {c : Char} (h : c ∈ jsTrim l) : c ∈ l := by
  rw [jsTrim] at h
  rw [List.mem_reverse] at h
  have h2 := (List.dropWhile_sublist _).subset h
  rw [List.mem_reverse] at h2
  exact (List.dropWhile_sublist _).subset h2

theorem mem_mathPart {l : List Char} {c : Char} (h : c ∈ mathPart l) : c ∈ l := by
  rw [mathPart] at h
  rw [List.mem_reverse] at h
  have h2 := (List.dropWhile_sublist _).subset h
  rwa [List.mem_reverse] at h2

/-! ### Structure of the shunting-yard output -/

theorem popToLParen_split (ops : List Tok) :
    ops = (popToLParen ops).1 ++ (popToLParen ops).2 ∧
      ∀ x ∈ (popToLParen ops).1, x ≠ Tok.lparen := by
  induction ops with
  | nil => simp [popToLParen]
  | cons t rest ih =>
    by_cases h : t = Tok.lparen
    · subst h
      simp [popToLParen]
    · simp only [popToLParen, if_neg h]
      refine ⟨?_, ?_⟩
      · exact congrArg (fun l => t :: l) ih.1
      · intro x hx
        rcases List.mem_cons.mp hx with rfl | hx2
        · exact h
        · exact ih.2 x hx2

theorem popWhileGe_split (inc : Tok) (ops : List Tok) :
    ops = (popWhileGe inc ops).1 ++ (popWhileGe inc ops).2 ∧
      ∀ x ∈ (popWhileGe inc ops).1, x ≠ Tok.lparen := by
  induction ops with
  | nil => simp [popWhileGe]
  | cons t rest ih =>
    by_cases h : t ≠ Tok.lparen ∧ precGe t inc = true
    · simp only [popWhileGe, if_pos h]
      refine ⟨?_, ?_⟩
      · exact congrArg (fun l => t :: l) ih.1
      · intro x hx
        rcases List.mem_cons.mp hx with rfl | hx2
        · exact h.1
        · exact ih.2 x hx2
    · simp [popWhileGe, if_neg h]

theorem shunt_cons_op {t : Tok} (h1 : t.isNum = false) (h2 : t ≠ Tok.lparen)
    (h3 : t ≠ Tok.rparen) (rest out ops : List Tok) :
    shunt (t :: rest) out ops =
      shunt rest (out ++ (popWhileGe t ops).1) (t :: (popWhileGe t ops).2) := by
  cases t <;> first
    | rfl
    | exact absurd rfl h2
    | exact absurd rfl h3
    | simp [Tok.isNum] at h1

theorem shunt_mem : ∀ (ts out ops : List Tok) (x : Tok),
    x ∈ shunt ts out ops → x ∈ ts ∨ x ∈ out ∨ x ∈ ops := by
  intro ts
  induction ts with
  | nil =>
    intro out ops x h
    rcases List.mem_append.mp h with h1 | h2
    · exact Or.inr (Or.inl h1)
    · exact Or.inr (Or.inr h2)
  | cons t rest ih =>
    intro out ops x h
    cases t with
    | num v s =>
      rcases ih (out ++ [Tok.num v s]) ops x h with h1 | h2 | h3
      · exact Or.inl (List.mem_cons_of_mem _ h1)
      · rcases List.mem_append.mp h2 with h2a | h2b
        · exact Or.inr (Or.inl h2a)
        · exact Or.inl (by rw [List.mem_singleton.mp h2b]; exact List.mem_cons_self ..)
      · exact Or.inr (Or.inr h3)
    | lparen =>
      rcases ih out (Tok.lparen :: ops) x h with h1 | h2 | h3
      · exact Or.inl (List.mem_cons_of_mem _ h1)
      · exact Or.inr (Or.inl h2)
      · rcases List.mem_cons.mp h3 with rfl | h3b
        · exact Or.inl (List.mem_cons_self ..)
        · exact Or.inr (Or.inr h3b)
    | rparen =>
      rcases ih _ _ x h with h1 | h2 | h3
      · exact Or.inl (List.mem_cons_of_mem _ h1)
      · rcases List.mem_append.mp h2 with h2a | h2b
        · exact Or.inr (Or.inl h2a)
        · refine Or.inr (Or.inr ?_)
          rw [(popToLParen_split ops).1]
          exact List.mem_append.mpr (Or.inl h2b)
      · refine Or.inr (Or.inr ?_)
        rw [(popToLParen_split ops).1]
        exact List.mem_append.mpr (Or.inr (List.drop_subset _ _ h3))
    | add | sub | mul | div | junk =>
      first
      | (rcases ih _ _ x h with h1 | h2 | h3
         · exact Or.inl (List.mem_cons_of_mem _ h1)
         · rcases List.mem_append.mp h2 with h2a | h2b
           · exact Or.inr (Or.inl h2a)
           · refine Or.inr (Or.inr ?_)
             rw [(popWhileGe_split _ ops).1]
             exact List.mem_append.mpr (Or.inl h2b)
         · rcases List.mem_cons.mp h3 with rfl | h3b
           · exact Or.inl (List.mem_cons_self ..)
           · refine Or.inr (Or.inr ?_)
             rw [(popWhileGe_split _ ops).1]
             exact List.mem_append.mpr (Or.inr h3b))

theorem shunt_split : ∀ (ts out ops : List Tok),
    (∀ t ∈ ops, t.isNum = false ∧ t ≠ Tok.rparen) →
    ∃ O P, shunt ts out ops = (out ++ O) ++ P ∧
      (∀ t ∈ O, t ≠ Tok.lparen ∧ t ≠ Tok.rparen) ∧
      (∀ t ∈ P, t.isNum = false ∧ t ≠ Tok.rparen) := by
  intro ts
  induction ts with
  | nil =>
    intro out ops h
    exact ⟨[], ops, by simp [shunt], by simp, h⟩
  | cons t rest ih =>
    intro out ops h
    by_cases hnum : t.isNum = true
    · match t, hnum with
      | Tok.num v s, _ =>
        obtain ⟨O, P, heq, hO, hP⟩ := ih (out ++ [Tok.num v s]) ops h
        refine ⟨Tok.num v s :: O, P, ?_, ?_, hP⟩
        · rw [show shunt (Tok.num v s :: rest) out ops =
            shunt rest (out ++ [Tok.num v s]) ops from rfl, heq]
          simp
        · intro x hx
          rcases List.mem_cons.mp hx with rfl | hx2
          · exact ⟨Tok.noConfusion, Tok.noConfusion⟩
          · exact hO x hx2
    · rw [Bool.not_eq_true] at hnum
      by_cases hlp : t = Tok.lparen
      · subst hlp
        have hyp : ∀ x ∈ Tok.lparen :: ops, x.isNum = false ∧ x ≠ Tok.rparen := by
          intro x hx
          rcases List.mem_cons.mp hx with rfl | hx2
          · exact ⟨rfl, Tok.noConfusion⟩
          · exact h x hx2
        obtain ⟨O, P, heq, hO, hP⟩ := ih out (Tok.lparen :: ops) hyp
        exact ⟨O, P, by rw [show shunt (Tok.lparen :: rest) out ops =
          shunt rest out (Tok.lparen :: ops) from rfl, heq], hO, hP⟩
      · by_cases hrp : t = Tok.rparen
        · subst hrp
          have hops := popToLParen_split ops
          have hyp : ∀ x ∈ (popToLParen ops).2.drop 1, x.isNum = false ∧ x ≠ Tok.rparen := by
            intro x hx
            have hmem : x ∈ ops := by
              rw [hops.1]
              exact List.mem_append.mpr (Or.inr (List.drop_subset _ _ hx))
            exact h x hmem
          obtain ⟨O, P, heq, hO, hP⟩ :=
            ih (out ++ (popToLParen ops).1) ((popToLParen ops).2.drop 1) hyp
          refine ⟨(popToLParen ops).1 ++ O, P, ?_, ?_, hP⟩
          · rw [show shunt (Tok.rparen :: rest) out ops =
              shunt rest (out ++ (popToLParen ops).1) ((popToLParen ops).2.drop 1) from rfl,
              heq]
            simp
          · intro x hx
            rcases List.mem_append.mp hx with hx1 | hx2
            · refine ⟨hops.2 x hx1, ?_⟩
              have hmem : x ∈ ops := by
                rw [hops.1]
                exact List.mem_append.mpr (Or.inl hx1)
              exact (h x hmem).2
            · exact hO x hx2
        · have hops := popWhileGe_split t ops
          have hyp : ∀ x ∈ t :: (popWhileGe t ops).2, x.isNum = false ∧ x ≠ Tok.rparen := by
            intro x hx
            rcases List.mem_cons.mp hx with rfl | hx2
            · exact ⟨hnum, hrp⟩
            · have hmem : x ∈ ops := by
                rw [hops.1]
                exact List.mem_append.mpr (Or.inr hx2)
              exact h x hmem
          obtain ⟨O, P, heq, hO, hP⟩ :=
            ih (out ++ (popWhileGe t ops).1) (t :: (popWhileGe t ops).2) hyp
          refine ⟨(popWhileGe t ops).1 ++ O, P, ?_, ?_, hP⟩
          · rw [shunt_cons_op hnum hlp hrp, heq]
            simp
          · intro x hx
            rcases List.mem_append.mp hx with hx1 | hx2
            · refine ⟨hops.2 x hx1, ?_⟩
              have hmem : x ∈ ops := by
                rw [hops.1]
                exact List.mem_append.mpr (Or.inl hx1)
              exact (h x hmem).2
            · exact hO x hx2

theorem tokenizeLibF_no_junk :
    ∀ (fuel : ℕ) (l : List Char), Tok.junk ∉ tokenizeLibF fuel l := by
  intro fuel
  induction fuel with
  | zero => intro l; cases l <;> simp [tokenizeLibF]
  | succ fuel ih =>
    intro l
    match l with
    | [] => simp [tokenizeLibF]
    | c :: cs =>
      rw [tokenizeLibF]
      cases hlex : lexNum (c :: cs) with
      | some vr =>
        obtain ⟨v, r⟩ := vr
        intro hmem
        rcases List.mem_cons.mp hmem with heq | hm
        · exact Tok.noConfusion heq
        · exact ih r hm
      | none =>
        split_ifs <;>
          first
          | (intro hmem
             rcases List.mem_cons.mp hmem with heq | hm
             · exact Tok.noConfusion heq
             · exact ih cs hm)
          | exact ih cs

/-! ### Stack invariants of the postfix evaluation after an underflow -/

theorem jsAdd_none_left (b : JSNum) : jsAdd none b = none := by cases b <;> rfl

theorem jsSub_none_left (b : JSNum) : jsSub none b = none := by cases b <;> rfl

theorem jsMul_none_left (b : JSNum) : jsMul none b = none := by cases b <;> rfl

theorem jsDiv_none_left (b : JSNum) : jsDiv none b = none := by cases b <;> rfl

theorem arith_not_num {t : Tok} (h : t.isArith = true) : t.isNum = false := by
  cases t <;> simp [Tok.isArith, Tok.isNum] at h ⊢

/-- An arithmetic operator executed on a stack with fewer than two operands
either throws (division with the single operand `0`) or leaves exactly the
one-element stack `[NaN]`. -/
theorem arith_underflow_step {t : Tok} (ha : t.isArith = true) {st : List JSNum}
    (hlen : st.length < 2) :
    binStep t st = none ∨
      ∃ st', binStep t st = some st' ∧ st' ≠ [] ∧ st'.getLast? = some none := by
  match st, hlen with
  | [], _ =>
    cases t with
    | add => exact Or.inr ⟨[none], rfl, by simp, rfl⟩
    | sub => exact Or.inr ⟨[none], rfl, by simp, rfl⟩
    | mul => exact Or.inr ⟨[none], rfl, by simp, rfl⟩
    | div => exact Or.inr ⟨[none], by decide, by simp, rfl⟩
    | _ => simp [Tok.isArith] at ha
  | [x], _ =>
    cases t with
    | add =>
      refine Or.inr ⟨[jsAdd none x], rfl, by simp, ?_⟩
      rw [jsAdd_none_left]
      rfl
    | sub =>
      refine Or.inr ⟨[jsSub none x], rfl, by simp, ?_⟩
      rw [jsSub_none_left]
      rfl
    | mul =>
      refine Or.inr ⟨[jsMul none x], rfl, by simp, ?_⟩
      rw [jsMul_none_left]
      rfl
    | div =>
      by_cases hx : x = some 0
      · subst hx
        exact Or.inl (by rfl)
      · refine Or.inr ⟨[jsDiv none x], ?_, by simp, ?_⟩
        · show (if x = some 0 then none else some [jsDiv none x]) = some [jsDiv none x]
          rw [if_neg hx]
        · rw [jsDiv_none_left]
          rfl
    | _ => simp [Tok.isArith] at ha
  | x :: y :: rest, hlen =>
    simp only [List.length_cons] at hlen
    omega

/-- An arithmetic operator executed on a stack whose bottom is NaN throws or
leaves a nonempty stack whose bottom is still NaN. -/
theorem arith_step_bottom {t : Tok} (ha : t.isArith = true) (st : List JSNum)
    (hbot : st.getLast? = some none) :
    binStep t st = none ∨
      ∃ st', binStep t st = some st' ∧ st' ≠ [] ∧ st'.getLast? = some none := by
  match st with
  | [] => simp at hbot
  | [x] =>
    exact arith_underflow_step ha (by simp)
  | x :: y :: rest =>
    cases hrest : rest with
    | nil =>
      subst hrest
      have hy : y = none := by simpa using hbot
      subst hy
      cases t with
      | add =>
        refine Or.inr ⟨[jsAdd none x], rfl, by simp, ?_⟩
        rw [jsAdd_none_left]
        rfl
      | sub =>
        refine Or.inr ⟨[jsSub none x], rfl, by simp, ?_⟩
        rw [jsSub_none_left]
        rfl
      | mul =>
        refine Or.inr ⟨[jsMul none x], rfl, by simp, ?_⟩
        rw [jsMul_none_left]
        rfl
      | div =>
        by_cases hx : x = some 0
        · subst hx
          exact Or.inl (by rfl)
        · refine Or.inr ⟨[jsDiv none x], ?_, by simp, ?_⟩
          · show (if x = some 0 then none else some [jsDiv none x]) = some [jsDiv none x]
            rw [if_neg hx]
          · rw [jsDiv_none_left]
            rfl
      | _ => simp [Tok.isArith] at ha
    | cons z zs =>
      subst hrest
      have hbot' : (z :: zs).getLast? = some none := by
        rw [List.getLast?_cons_cons, List.getLast?_cons_cons] at hbot
        exact hbot
      have hb2 : ∀ r : JSNum, (r :: z :: zs).getLast? = some none := by
        intro r
        rw [List.getLast?_cons_cons]
        exact hbot'
      cases t with
      | add => exact Or.inr ⟨jsAdd y x :: z :: zs, rfl, by simp, hb2 _⟩
      | sub => exact Or.inr ⟨jsSub y x :: z :: zs, rfl, by simp, hb2 _⟩
      | mul => exact Or.inr ⟨jsMul y x :: z :: zs, rfl, by simp, hb2 _⟩
      | div =>
        by_cases hx : x = some 0
        · subst hx
          exact Or.inl (by rfl)
        · refine Or.inr ⟨jsDiv y x :: z :: zs, ?_, by simp, hb2 _⟩
          show (if x = some 0 then none else some (jsDiv y x :: z :: zs)) = _
          rw [if_neg hx]
      | _ => simp [Tok.isArith] at ha

/-- A non-numeric, non-arithmetic token (`(`, `)`, or a `junk` token) matches
no `switch` case: it pops two values and pushes nothing. -/
theorem nonarith_step (t : Tok) (hn : t.isNum = false) (ha : t.isArith = false)
    (st : List JSNum) : binStep t st = some (st.drop 2) := by
  cases t with
  | num v s => simp [Tok.isNum] at hn
  | lparen => rcases st with _ | ⟨x, _ | ⟨y, r⟩⟩ <;> rfl
  | rparen => rcases st with _ | ⟨x, _ | ⟨y, r⟩⟩ <;> rfl
  | junk => rcases st with _ | ⟨x, _ | ⟨y, r⟩⟩ <;> rfl
  | add => simp [Tok.isArith] at ha
  | sub => simp [Tok.isArith] at ha
  | mul => simp [Tok.isArith] at ha
  | div => simp [Tok.isArith] at ha

theorem drop2_inv {st : List JSNum} (h : st = [] ∨ st.getLast? = some none) :
    st.drop 2 = [] ∨ (st.drop 2).getLast? = some none := by
  rcases st with _ | ⟨x, _ | ⟨y, r⟩⟩
  · left; rfl
  · left; rfl
  · rcases r with _ | ⟨z, zs⟩
    · left; rfl
    · right
      rcases h with h0 | hbot
      · simp at h0
      · rw [List.getLast?_cons_cons, List.getLast?_cons_cons] at hbot
        exact hbot

theorem arith_step_inv {t : Tok} (ha : t.isArith = true) {st : List JSNum}
    (h : st = [] ∨ st.getLast? = some none) :
    binStep t st = none ∨
      ∃ st', binStep t st = some st' ∧ st' ≠ [] ∧ st'.getLast? = some none := by
  rcases h with rfl | hbot
  · exact arith_underflow_step ha (by simp)
  · exact arith_step_bottom ha st hbot

/-- Once the stack bottom is NaN and only numbers and arithmetic operators
remain (the scan region of a shunting-yard output), evaluation throws or ends
with a stack whose bottom is still NaN. -/
theorem evalRPN_A : ∀ (A : List Tok) (st : List JSNum),
    (∀ t ∈ A, t.isNum = true ∨ t.isArith = true) →
    st.getLast? = some none →
    evalRPN A st = RPNRes.thrown ∨
      ∃ st', evalRPN A st = RPNRes.done st' ∧ st'.getLast? = some none := by
  intro A
  induction A with
  | nil => intro st _ hbot; exact Or.inr ⟨st, rfl, hbot⟩
  | cons t ts ih =>
    intro st hA hbot
    have hts : ∀ x ∈ ts, x.isNum = true ∨ x.isArith = true :=
      fun x hx => hA x (List.mem_cons_of_mem _ hx)
    have hst : st ≠ [] := by
      intro h0
      rw [h0] at hbot
      simp at hbot
    rcases hA t (List.mem_cons_self ..) with hnum | harith
    · match t, hnum with
      | Tok.num v s, _ =>
        have hbot' : (some v :: st).getLast? = some none := by
          match st, hst with
          | x :: xs, _ =>
            rw [List.getLast?_cons_cons]
            exact hbot
        exact ih (some v :: st) hts hbot'
    · have hnum' : t.isNum = false := arith_not_num harith
      rcases arith_step_bottom harith st hbot with hbin | ⟨st', hbin, hne, hbot'⟩
      · left
        rw [evalRPN_cons_op hnum', hbin]
      · rw [evalRPN_cons_op hnum', hbin]
        exact ih st' hts hbot'

/-- In the drain region of a shunting-yard output (no numeric tokens), an
empty or NaN-bottomed stack stays that way. -/
theorem evalRPN_B : ∀ (P : List Tok) (st : List JSNum),
    (∀ t ∈ P, t.isNum = false) →
    (st = [] ∨ st.getLast? = some none) →
    evalRPN P st = RPNRes.thrown ∨
      ∃ st', evalRPN P st = RPNRes.done st' ∧ (st' = [] ∨ st'.getLast? = some none) := by
  intro P
  induction P with
  | nil => intro st _ h; exact Or.inr ⟨st, rfl, h⟩
  | cons t ts ih =>
    intro st hP hinv
    have hnum : t.isNum = false := hP t (List.mem_cons_self ..)
    have hts : ∀ x ∈ ts, x.isNum = false := fun x hx => hP x (List.mem_cons_of_mem _ hx)
    by_cases harith : t.isArith = true
    · rcases arith_step_inv harith hinv with hbin | ⟨st', hbin, hne, hbot'⟩
      · left
        rw [evalRPN_cons_op hnum, hbin]
      · rw [evalRPN_cons_op hnum, hbin]
        exact ih st' hts (Or.inr hbot')
    · rw [Bool.not_eq_true] at harith
      rw [evalRPN_cons_op hnum, nonarith_step t hnum harith st]
      exact ih (st.drop 2) hts (drop2_inv hinv)

theorem hasUnderflow_cons_arith {t : Tok} (ha : t.isArith = true) (ts : List Tok)
    (st : List JSNum) :
    hasUnderflow (t :: ts) st =
      if st.length < 2 then true
      else
        match binStep t st with
        | none => false
        | some st' => hasUnderflow ts st' := by
  cases t <;> first | rfl | simp [Tok.isArith] at ha

theorem hasUnderflow_cons_other {t : Tok} (hn : t.isNum = false) (ha : t.isArith = false)
    (ts : List Tok) (st : List JSNum) :
    hasUnderflow (t :: ts) st =
      match binStep t st with
      | none => false
      | some st' => hasUnderflow ts st' := by
  cases t with
  | num v s => simp [Tok.isNum] at hn
  | lparen => rfl
  | rparen => rfl
  | junk => rfl
  | add => simp [Tok.isArith] at ha
  | sub => simp [Tok.isArith] at ha
  | mul => simp [Tok.isArith] at ha
  | div => simp [Tok.isArith] at ha

/-- Underflow in the drain region forces failure. -/
theorem hu_B : ∀ (P : List Tok) (st : List JSNum),
    (∀ t ∈ P, t.isNum = false) →
    hasUnderflow P st = true →
    evalRPN P st = RPNRes.thrown ∨
      ∃ st', evalRPN P st = RPNRes.done st' ∧ (st' = [] ∨ st'.getLast? = some none) := by
  intro P
  induction P with
  | nil => intro st _ h; simp [hasUnderflow] at h
  | cons t ts ih =>
    intro st hP hu
    have hnum : t.isNum = false := hP t (List.mem_cons_self ..)
    have hts : ∀ x ∈ ts, x.isNum = false := fun x hx => hP x (List.mem_cons_of_mem _ hx)
    by_cases harith : t.isArith = true
    · rw [hasUnderflow_cons_arith harith] at hu
      by_cases hlen : st.length < 2
      · rcases arith_underflow_step harith hlen with hbin | ⟨st', hbin, hne, hbot⟩
        · left
          rw [evalRPN_cons_op hnum, hbin]
        · rw [evalRPN_cons_op hnum, hbin]
          exact evalRPN_B ts st' hts (Or.inr hbot)
      · rw [if_neg hlen] at hu
        cases hbin : binStep t st with
        | none =>
          rw [hbin] at hu
          simp at hu
        | some st' =>
          rw [hbin] at hu
          dsimp only at hu
          rw [evalRPN_cons_op hnum, hbin]
          exact ih st' hts hu
    · rw [Bool.not_eq_true] at harith
      rw [hasUnderflow_cons_other hnum harith, nonarith_step t hnum harith st] at hu
      dsimp only at hu
      rw [evalRPN_cons_op hnum, nonarith_step t hnum harith st]
      exact ih (st.drop 2) hts hu

/-- Underflow anywhere in a shunting-yard output (scan region of numbers and
arithmetic operators followed by drain region without numbers) forces
failure: the run throws, or finishes with an empty or NaN-bottomed stack. -/
theorem hu_A : ∀ (O P : List Tok) (st : List JSNum),
    (∀ t ∈ O, t.isNum = true ∨ t.isArith = true) →
    (∀ t ∈ P, t.isNum = false) →
    hasUnderflow (O ++ P) st = true →
    evalRPN (O ++ P) st = RPNRes.thrown ∨
      ∃ st', evalRPN (O ++ P) st = RPNRes.done st' ∧
        (st' = [] ∨ st'.getLast? = some none) := by
  intro O
  induction O with
  | nil => intro P st _ hP hu; exact hu_B P st hP hu
  | cons t ts ih =>
    intro P st hO hP hu
    have hts : ∀ x ∈ ts, x.isNum = true ∨ x.isArith = true :=
      fun x hx => hO x (List.mem_cons_of_mem _ hx)
    rcases hO t (List.mem_cons_self ..) with hnum | harith
    · match t, hnum with
      | Tok.num v s, _ =>
        exact ih P (some v :: st) hts hP hu
    · have hnum' : t.isNum = false := arith_not_num harith
      rw [List.cons_append] at hu ⊢
      by_cases hlen : st.length < 2
      · rcases arith_underflow_step harith hlen with hbin | ⟨st', hbin, hne, hbot⟩
        · left
          rw [evalRPN_cons_op hnum', hbin]
        · rw [evalRPN_cons_op hnum', hbin]
          dsimp only
          rw [evalRPN_append]
          rcases evalRPN_A ts st' hts hbot with hth | ⟨st'', hdone, hbot''⟩
          · rw [hth]
            exact Or.inl rfl
          · rw [hdone]
            exact evalRPN_B P st'' hP (Or.inr hbot'')
      · rw [hasUnderflow_cons_arith harith, if_neg hlen] at hu
        cases hbin : binStep t st with
        | none =>
          rw [hbin] at hu
          simp at hu
        | some st' =>
          rw [hbin] at hu
          dsimp only at hu
          rw [evalRPN_cons_op hnum', hbin]
          exact ih P st' hts hP hu

/-! ### Decimal rendering re-parses to the same value -/

theorem digitChar_facts {d : ℕ} (hd : d < 10) :
    (Char.ofNat (48 + d)).isDigit = true ∧
    isUnitChar (Char.ofNat (48 + d)) = false ∧
    isJSWhitespace (Char.ofNat (48 + d)) = false ∧
    (Char.ofNat (48 + d)).toNat - '0'.toNat = d := by
  interval_cases d <;> exact ⟨by decide, by decide, by decide, by decide⟩

theorem unit_not_ws {c : Char} (h : isUnitChar c = true) : isJSWhitespace c = false := by
  by_contra hw
  rw [Bool.not_eq_false] at hw
  simp only [isJSWhitespace, Bool.or_eq_true, beq_iff_eq] at hw
  rcases hw with ((((rfl | rfl) | rfl) | rfl) | rfl) | rfl <;>
    exact absurd h (by decide)

theorem digitsVal_append (l : List Char) (c : Char) :
    digitsVal (l ++ [c]) = 10 * digitsVal l + (c.toNat - '0'.toNat) := by
  simp [digitsVal, List.foldl_append]

theorem natDigitsRevF_spec : ∀ (fuel n : ℕ), n ≤ fuel →
    digitsVal (natDigitsRevF fuel n).reverse = n ∧
    ∀ c ∈ natDigitsRevF fuel n, ∃ d, d < 10 ∧ c = Char.ofNat (48 + d) := by
  intro fuel
  induction fuel with
  | zero =>
    intro n hn
    have : n = 0 := Nat.le_zero.mp hn
    subst this
    exact ⟨rfl, by simp [natDigitsRevF]⟩
  | succ fuel ih =>
    intro n hn
    by_cases h0 : n = 0
    · subst h0
      exact ⟨rfl, by simp [natDigitsRevF]⟩
    · have hstep : natDigitsRevF (fuel + 1) n =
          Char.ofNat (48 + n % 10) :: natDigitsRevF fuel (n / 10) := by
        rw [natDigitsRevF, if_neg h0]
      have hdiv : n / 10 ≤ fuel := by
        have hlt : n / 10 < n := Nat.div_lt_self (Nat.pos_of_ne_zero h0) (by norm_num)
        omega
      obtain ⟨ihval, ihmem⟩ := ih (n / 10) hdiv
      constructor
      · rw [hstep, List.reverse_cons, digitsVal_append, ihval,
          (digitChar_facts (Nat.mod_lt n (by omega))).2.2.2]
        omega
      · intro c hc
        rw [hstep] at hc
        rcases List.mem_cons.mp hc with rfl | hc2
        · exact ⟨n % 10, Nat.mod_lt n (by omega), rfl⟩
        · exact ihmem c hc2

theorem natStr_spec (n : ℕ) :
    natStr n ≠ [] ∧ digitsVal (natStr n) = n ∧
    ∀ c ∈ natStr n, ∃ d, d < 10 ∧ c = Char.ofNat (48 + d) := by
  by_cases h0 : n = 0
  · subst h0
    refine ⟨by simp [natStr], by decide, ?_⟩
    intro c hc
    simp only [natStr, if_pos] at hc
    rcases List.mem_singleton.mp hc with rfl
    exact ⟨0, by omega, by decide⟩
  · have hne : natStr n = (natDigitsRevF n n).reverse := by rw [natStr, if_neg h0]
    obtain ⟨hval, hmem⟩ := natDigitsRevF_spec n n le_rfl
    refine ⟨?_, by rw [hne]; exact hval, ?_⟩
    · rw [hne]
      obtain ⟨f, rfl⟩ : ∃ f, n = f + 1 := ⟨n - 1, by omega⟩
      rw [natDigitsRevF, if_neg h0]
      simp
    · intro c hc
      rw [hne, List.mem_reverse] at hc
      exact hmem c hc

theorem padDigits_spec : ∀ (k r : ℕ), r < 10 ^ k →
    digitsVal (padDigits k r) = r ∧ (padDigits k r).length = k ∧
    ∀ c ∈ padDigits k r, ∃ d, d < 10 ∧ c = Char.ofNat (48 + d) := by
  intro k
  induction k with
  | zero =>
    intro r hr
    have : r = 0 := by simpa using Nat.lt_one_iff.mp (by simpa using hr)
    subst this
    exact ⟨rfl, rfl, by simp [padDigits]⟩
  | succ k ih =>
    intro r hr
    have hdiv : r / 10 < 10 ^ k := by
      rw [Nat.div_lt_iff_lt_mul (by omega)]
      calc r < 10 ^ (k + 1) := hr
        _ = 10 ^ k * 10 := by rw [Nat.pow_succ]
    obtain ⟨ihval, ihlen, ihmem⟩ := ih (r / 10) hdiv
    refine ⟨?_, ?_, ?_⟩
    · rw [padDigits, digitsVal_append, ihval,
        (digitChar_facts (Nat.mod_lt r (by omega))).2.2.2]
      omega
    · rw [padDigits]
      simp [ihlen]
    · intro c hc
      rw [padDigits] at hc
      rcases List.mem_append.mp hc with hc1 | hc2
      · exact ihmem c hc1
      · rcases List.mem_singleton.mp hc2 with rfl
        exact ⟨r % 10, Nat.mod_lt r (by omega), rfl⟩

theorem decChars_chars (m k : ℕ) :
    ∀ c ∈ decChars m k, isUnitChar c = false ∧ isJSWhitespace c = false := by
  intro c hc
  rw [decChars] at hc
  by_cases hk : k = 0
  · rw [if_pos hk] at hc
    obtain ⟨d, hd, rfl⟩ := (natStr_spec m).2.2 c hc
    exact ⟨(digitChar_facts hd).2.1, (digitChar_facts hd).2.2.1⟩
  · rw [if_neg hk] at hc
    have hlt : m % 10 ^ k < 10 ^ k := Nat.mod_lt m (Nat.pos_pow_of_pos k (by omega))
    rcases List.mem_append.mp hc with hc1 | hc2
    · obtain ⟨d, hd, rfl⟩ := (natStr_spec (m / 10 ^ k)).2.2 c hc1
      exact ⟨(digitChar_facts hd).2.1, (digitChar_facts hd).2.2.1⟩
    · rcases List.mem_cons.mp hc2 with rfl | hc3
      · exact ⟨by decide, by decide⟩
      · obtain ⟨d, hd, rfl⟩ := (padDigits_spec k (m % 10 ^ k) hlt).2.2 c hc3
        exact ⟨(digitChar_facts hd).2.1, (digitChar_facts hd).2.2.1⟩

theorem decChars_ne_nil (m k : ℕ) : decChars m k ≠ [] := by
  rw [decChars]
  by_cases hk : k = 0
  · rw [if_pos hk]
    exact (natStr_spec m).1
  · rw [if_neg hk]
    intro h
    rcases List.append_eq_nil.mp h with ⟨h1, -⟩
    exact (natStr_spec (m / 10 ^ k)).1 h1

theorem takeWhile_of_all {p : Char → Bool} :
    ∀ {l : List Char}, (∀ c ∈ l, p c = true) →
      l.takeWhile p = l ∧ l.dropWhile p = [] := by
  intro l
  induction l with
  | nil => intro _; simp
  | cons c cs ih =>
    intro h
    have hc : p c = true := h c (List.mem_cons_self ..)
    obtain ⟨h1, h2⟩ := ih (fun x hx => h x (List.mem_cons_of_mem _ hx))
    rw [List.takeWhile_cons_of_pos hc, List.dropWhile_cons_of_pos hc, h1, h2]
    exact ⟨rfl, rfl⟩

theorem takeWhile_append_of_all {p : Char → Bool} :
    ∀ {a : List Char} (b : List Char), (∀ c ∈ a, p c = true) →
      (a ++ b).takeWhile p = a ++ b.takeWhile p ∧ (a ++ b).dropWhile p = b.dropWhile p := by
  intro a
  induction a with
  | nil => intro b _; simp
  | cons c cs ih =>
    intro b h
    have hc : p c = true := h c (List.mem_cons_self ..)
    rw [List.cons_append, List.takeWhile_cons_of_pos hc, List.dropWhile_cons_of_pos hc]
    obtain ⟨h1, h2⟩ := ih b (fun x hx => h x (List.mem_cons_of_mem _ hx))
    rw [h1, h2]
    exact ⟨rfl, rfl⟩

theorem dropWhile_of_all_false {p : Char → Bool} {l : List Char}
    (h : ∀ c ∈ l, p c = false) : l.dropWhile p = l := by
  cases l with
  | nil => rfl
  | cons c cs =>
    have hc : ¬p c = true := by
      rw [h c (List.mem_cons_self ..)]
      exact Bool.false_ne_true
    rw [List.dropWhile_cons_of_neg hc]

theorem jsTrim_of_no_ws {l : List Char} (h : ∀ c ∈ l, isJSWhitespace c = false) :
    jsTrim l = l := by
  rw [jsTrim, dropWhile_of_all_false h,
    dropWhile_of_all_false (fun c hc => h c (List.mem_reverse.mp hc)),
    List.reverse_reverse]

theorem natStr_digits (n : ℕ) : ∀ c ∈ natStr n, c.isDigit = true := by
  intro c hc
  obtain ⟨d, hd, rfl⟩ := (natStr_spec n).2.2 c hc
  exact (digitChar_facts hd).1

theorem padDigits_digits (k r : ℕ) (hr : r < 10 ^ k) :
    ∀ c ∈ padDigits k r, c.isDigit = true := by
  intro c hc
  obtain ⟨d, hd, rfl⟩ := (padDigits_spec k r hr).2.2 c hc
  exact (digitChar_facts hd).1

theorem lexNum_decChars (m k : ℕ) :
    lexNum (decChars m k) = some ((m : ℚ) / 10 ^ k, []) := by
  by_cases hk : k = 0
  · subst hk
    have hD : decChars m 0 = natStr m := by rw [decChars, if_pos rfl]
    cases hns : natStr m with
    | nil => exact absurd hns (natStr_spec m).1
    | cons c cs =>
      have hdig : ∀ x ∈ c :: cs, x.isDigit = true := by
        rw [← hns]
        exact natStr_digits m
      have hc : c.isDigit = true := hdig c (List.mem_cons_self ..)
      obtain ⟨htake, hdrop⟩ := takeWhile_of_all hdig
      rw [hD, hns]
      rw [lexNum, if_pos hc, htake, hdrop]
      show some (lexVal (c :: cs) [], []) = _
      have hval : lexVal (c :: cs) [] = (m : ℚ) := by
        rw [lexVal_eq]
        rw [show digitsVal (c :: cs) = m from by rw [← hns]; exact (natStr_spec m).2.1]
        simp [digitsVal]
      rw [hval]
      norm_num
  · have hq := natStr_spec (m / 10 ^ k)
    have hlt : m % 10 ^ k < 10 ^ k := Nat.mod_lt m (Nat.pos_pow_of_pos k (by omega))
    have hp := padDigits_spec k (m % 10 ^ k) hlt
    have hD : decChars m k = natStr (m / 10 ^ k) ++ '.' :: padDigits k (m % 10 ^ k) := by
      rw [decChars, if_neg hk]
    cases hns : natStr (m / 10 ^ k) with
    | nil => exact absurd hns hq.1
    | cons c cs =>
      have hdig : ∀ x ∈ c :: cs, x.isDigit = true := by
        rw [← hns]
        exact natStr_digits (m / 10 ^ k)
      have hc : c.isDigit = true := hdig c (List.mem_cons_self ..)
      rw [hD, hns, List.cons_append]
      rw [lexNum, if_pos hc]
      rw [show (c :: (cs ++ '.' :: padDigits k (m % 10 ^ k))) =
        (c :: cs) ++ '.' :: padDigits k (m % 10 ^ k) from rfl]
      obtain ⟨htake, hdrop⟩ :=
        takeWhile_append_of_all (p := Char.isDigit) ('.' :: padDigits k (m % 10 ^ k)) hdig
      rw [htake, hdrop]
      have hdot : ¬('.' : Char).isDigit = true := by decide
      rw [List.takeWhile_cons_of_neg hdot, List.dropWhile_cons_of_neg hdot, List.append_nil]
      cases hpad : padDigits k (m % 10 ^ k) with
      | nil =>
        exfalso
        have := hp.2.1
        rw [hpad] at this
        simp at this
        omega
      | cons c2 r2 =>
        have hdig2 : ∀ x ∈ c2 :: r2, x.isDigit = true := by
          rw [← hpad]
          exact padDigits_digits k (m % 10 ^ k) hlt
        have hc2 : c2.isDigit = true := hdig2 c2 (List.mem_cons_self ..)
        obtain ⟨htake2, hdrop2⟩ := takeWhile_of_all hdig2
        have hfrac : lexFrac ('.' :: c2 :: r2) = some (c2 :: r2, []) := by
          show (if ('.' : Char) = '.' then
              if c2.isDigit then
                some ((c2 :: r2).takeWhile Char.isDigit, (c2 :: r2).dropWhile Char.isDigit)
              else none
            else none) = _
          rw [if_pos rfl, if_pos hc2, htake2, hdrop2]
        simp only [hfrac]
        show some (lexVal (c :: cs) (c2 :: r2), []) = _
        have hvq : digitsVal (c :: cs) = m / 10 ^ k := by
          rw [← hns]
          exact hq.2.1
        have hvf : digitsVal (c2 :: r2) = m % 10 ^ k := by
          rw [← hpad]
          exact hp.1
        have hlen : (c2 :: r2).length = k := by
          rw [← hpad]
          exact hp.2.1
        have hval : lexVal (c :: cs) (c2 :: r2) = (m : ℚ) / 10 ^ k := by
          rw [lexVal_eq, hvq, hvf, hlen]
          have h10 : ((10 : ℚ) ^ k) ≠ 0 := by positivity
          have hm : (10 : ℚ) ^ k * ((m / 10 ^ k : ℕ) : ℚ) + ((m % 10 ^ k : ℕ) : ℚ) = (m : ℚ) := by
            exact_mod_cast Nat.div_add_mod m (10 ^ k)
          rw [eq_div_iff h10, add_mul, div_mul_cancel₀ _ h10]
          linarith [hm]
        rw [hval]

theorem tokenizeLibF_nil : ∀ fuel : ℕ, tokenizeLibF fuel [] = [] := by
  intro fuel
  cases fuel <;> rfl

theorem tokenizeLib_decChars (m k : ℕ) :
    tokenizeLib (decChars m k) = [Tok.num ((m : ℚ) / 10 ^ k) false] := by
  have hlex := lexNum_decChars m k
  cases hD : decChars m k with
  | nil => exact absurd hD (decChars_ne_nil m k)
  | cons c cs =>
    rw [hD] at hlex
    rw [tokenizeLib]
    show tokenizeLibF (cs.length + 1) (c :: cs) = _
    rw [tokenizeLibF, hlex]
    dsimp only
    rw [tokenizeLibF_nil]

theorem asString_data (u : String) : u.data.asString = u := rfl

theorem success_unit_shape {s : String} {val : JSNum} {u : String}
    (h : evaluateExpression s = EvalResult.ok ⟨val, u⟩) :
    u.data ≠ [] ∧ ∀ c ∈ u.data, isUnitChar c = true := by
  obtain ⟨q, -, hv⟩ := wrapResult_ok h
  have hu : u = unitName (unitRun (jsTrim s.data)) :=
    congrArg ValueWithUnit.unit hv
  by_cases hrun : unitRun (jsTrim s.data) = []
  · rw [unitName, if_pos hrun] at hu
    subst hu
    exact ⟨by decide, by decide⟩
  · rw [unitName, if_neg hrun] at hu
    subst hu
    constructor
    · intro habs
      exact hrun habs
    · intro c hc
      exact mem_unitRun hc

/-! ### Claim theorems -/

/-- Claim C1 (the spec's unary-minus examples, settled as a bug of the
`lib/evaluate-expression.ts` evaluator): the library evaluator rejects
`"-5 + 2"` and `"1.5 * -2px"` with `InvalidExpression` (its unsigned
tokenizer emits a bare `-` whose evaluation underflows the stack to NaN),
while the validated-input variant — whose unary-minus folding is what the
spec describes — returns `-3` (unit `"none"`) and `-3` (unit `"px"`) as the
spec states. -/
theorem claim_C1 :
    evaluateExpression "-5 + 2" = EvalResult.invalidExpression ∧
    evaluateExpression "1.5 * -2px" = EvalResult.invalidExpression ∧
    evaluateExpressionV "-5 + 2" = EvalResult.ok ⟨some (-3), "none"⟩ ∧
    evaluateExpressionV "1.5 * -2px" = EvalResult.ok ⟨some (-3), "px"⟩ := by
  decide

/-- Claim C2: operator precedence and parentheses are respected —
`"2 + 3 * 4"` evaluates to 14 with unit `"none"`, and `"(2 + 3) * 4em"`
evaluates to 20 with unit `"em"`. -/
theorem claim_C2 :
    evaluateExpression "2 + 3 * 4" = EvalResult.ok ⟨some 14, "none"⟩ ∧
    evaluateExpression "(2 + 3) * 4em" = EvalResult.ok ⟨some 20, "em"⟩ := by
  decide

/-- Claim C3, counterexample: a surplus closing parenthesis is NOT rejected —
`"2+3)"` evaluates successfully to 5 (the `)` branch pops the whole operator
stack and the stray `operators.pop()` on the empty stack is a no-op), contrary
to the claim that every unbalanced-parenthesis input fails with
`InvalidExpression`. -/
theorem claim_C3_counterexample :
    evaluateExpression "2+3)" = EvalResult.ok ⟨some 5, "none"⟩ ∧
    evaluateExpression "2+3)" ≠ EvalResult.invalidExpression := by
  decide

/-- Claim C3 as amended: unbalanced parentheses are not rejected in
general.  A surplus closing parenthesis is silently discarded (`"2+3)"`
evaluates to 5: the `)` branch pops the whole operator stack and the stray
`operators.pop()` on the empty stack is a no-op), and an unclosed opening
parenthesis may also evaluate successfully (`"2(3)4("` evaluates to 2: the
unclosed `(` is drained into the output queue, where it merely discards the
top two entries of the three-element stack and `stack[0]` is still the clean
number 2).  Some unbalanced inputs do fail — `"(2+3"` fails with
`InvalidExpression`, because there the drained `(` empties the stack and
`stack[0]` is undefined — but balance checking is not what rejects them. -/
theorem claim_C3 :
    evaluateExpression "2+3)" = EvalResult.ok ⟨some 5, "none"⟩ ∧
    evaluateExpression "2(3)4(" = EvalResult.ok ⟨some 2, "none"⟩ ∧
    evaluateExpression "(2+3" = EvalResult.invalidExpression := by
  decide

/-- Claim C4: whenever the `/` operator is executed during postfix evaluation
with right operand `b` equal to 0 (the popped stack top is the number 0 at a
`div` token), the evaluation throws, and `evaluateExpression` surfaces it as
`InvalidExpression`; in particular `"10 / 0"` fails with
`InvalidExpression`. -/
theorem claim_C4 :
    (∀ (s : String) (l1 l2 : List Tok) (rest : List JSNum),
        postfixLib (mathPart (jsTrim s.data)) = l1 ++ Tok.div :: l2 →
        evalRPN l1 [] = RPNRes.done (some 0 :: rest) →
        evaluateExpression s = EvalResult.invalidExpression) ∧
    evaluateExpression "10 / 0" = EvalResult.invalidExpression := by
  constructor
  · intro s l1 l2 rest hsplit heval
    have h1 : evalRPN (postfixLib (mathPart (jsTrim s.data))) [] = RPNRes.thrown := by
      rw [hsplit, evalRPN_append, heval]
      show evalRPN (Tok.div :: l2) (some 0 :: rest) = RPNRes.thrown
      rw [evalRPN_cons_op (t := Tok.div) rfl]
      simp [binStep, popJS]
    show wrapResult (evaluateBasicMath (mathPart (jsTrim s.data))) _ = _
    rw [evaluateBasicMath, h1]
    rfl
  · decide

/-- Witness for C4 at the concrete input `"10 / 0"`: its postfix queue is
`10 0 /` and the stack is `[0, 10]` (top first) when `/` executes. -/
theorem claim_C4_witness :
    postfixLib (mathPart (jsTrim ("10 / 0" : String).data)) =
      [Tok.num 10 false, Tok.num 0 false] ++ Tok.div :: [] ∧
    evalRPN [Tok.num 10 false, Tok.num 0 false] [] = RPNRes.done (some 0 :: [some 10]) ∧
    evaluateExpression "10 / 0" = EvalResult.invalidExpression :=
  ⟨by decide, by decide,
    claim_C4.1 "10 / 0" [Tok.num 10 false, Tok.num 0 false] [] [some 10]
      (by decide) (by decide)⟩

/-- Claim C5: whenever `evaluateExpression` returns successfully, the
returned `value` is an actual (finite) rational — never the NaN value `none`
(and infinities do not exist in the exact-rational embedding; the source
additionally guards with `isFinite`). -/
theorem claim_C5 (s : String) (r : ValueWithUnit)
    (h : evaluateExpression s = EvalResult.ok r) : ∃ q : ℚ, r.value = some q := by
  obtain ⟨q, -, hv⟩ := wrapResult_ok h
  exact ⟨q, by rw [hv]⟩

/-- Witness for C5 at the concrete input `"10px"`. -/
theorem claim_C5_witness :
    evaluateExpression "10px" = EvalResult.ok ⟨some 10, "px"⟩ ∧
    ∃ q : ℚ, (ValueWithUnit.mk (some 10) "px").value = some q :=
  ⟨by decide, claim_C5 "10px" ⟨some 10, "px"⟩ (by decide)⟩

/-- Claim C9, counterexample: the unit is not validated against the closed
`Unit` enumeration — `"10foo"` evaluates successfully with unit `"foo"`,
which is none of `px`, `em`, `rem`, `%`, `vw`, `vh`, `ch`, `none` (the
TypeScript `as Unit` cast performs no runtime check). -/
theorem claim_C9_counterexample :
    evaluateExpression "10foo" = EvalResult.ok ⟨some 10, "foo"⟩ ∧
    ("foo" : String) ∉ (["px", "em", "rem", "%", "vw", "vh", "ch", "none"] : List String) := by
  decide

/-- Claim C9 as amended: on success the returned unit is the `"none"`
sentinel or a nonempty string consisting solely of letters and `%` — the
lexical shape of the trailing-unit regex — but it is not validated against
the closed `Unit` enumeration. -/
theorem claim_C9 (s : String) (r : ValueWithUnit)
    (h : evaluateExpression s = EvalResult.ok r) :
    r.unit = "none" ∨ (r.unit ≠ "" ∧ ∀ c ∈ r.unit.data, isUnitChar c = true) := by
  obtain ⟨q, -, hv⟩ := wrapResult_ok h
  subst hv
  by_cases hrun : unitRun (jsTrim s.data) = []
  · left
    simp [unitName, hrun]
  · right
    constructor
    · simp only [unitName, hrun, if_neg, not_false_iff]
      intro habs
      apply hrun
      have : (List.asString (unitRun (jsTrim s.data))).data = ("" : String).data :=
        congrArg String.data habs
      simpa using this
    · intro c hc
      simp only [unitName, hrun, if_neg, not_false_iff] at hc
      exact mem_unitRun hc

/-- Witness for C9 (amended) at the concrete input `"10foo"`. -/
theorem claim_C9_witness :
    evaluateExpression "10foo" = EvalResult.ok ⟨some 10, "foo"⟩ ∧
    (("foo" : String) = "none" ∨
      (("foo" : String) ≠ "" ∧ ∀ c ∈ ("foo" : String).data, isUnitChar c = true)) :=
  ⟨by decide, by
    have := claim_C9 "10foo" ⟨some 10, "foo"⟩ (by decide)
    simpa using this⟩

/-- Claim C6: for every input, the trimmed string splits as `m ++ u` where
`u` is the trailing maximal run of letters / `%` (every character of `u` is a
unit character, and `m` is empty or ends in a non-unit character), the
arithmetic evaluator receives exactly `m`, the unit is `u` (or the `"none"`
sentinel when `u` is empty); in particular `"10px"` evaluates to 10 with unit
`"px"`. -/
theorem claim_C6 (s : String) :
    ∃ m u : List Char,
      jsTrim s.data = m ++ u ∧
      (∀ c ∈ u, isUnitChar c = true) ∧
      (m = [] ∨ ∃ m' c, m = m' ++ [c] ∧ isUnitChar c = false) ∧
      evaluateExpression s =
        wrapResult (evaluateBasicMath m) (if u = [] then "none" else u.asString) ∧
      evaluateExpression "10px" = EvalResult.ok ⟨some 10, "px"⟩ := by
  refine ⟨mathPart (jsTrim s.data), unitRun (jsTrim s.data),
    (mathPart_append_unitRun _).symm, fun c hc => mem_unitRun hc, ?_, rfl, by decide⟩
  rcases hdrop : (jsTrim s.data).reverse.dropWhile isUnitChar with _ | ⟨c, cs⟩
  · left
    simp [mathPart, hdrop]
  · right
    refine ⟨cs.reverse, c, ?_, dropWhile_head_not hdrop⟩
    simp [mathPart, hdrop]

/-- Claim C10, counterexample: the two evaluator variants are not
equivalent.  On `"5 - 2"` the library evaluator returns 3, while the
validated-input variant returns 5: its signed tokenizer lexes the input as
the two numbers `5` and `-2`, no operator is applied, and `stack[0]` returns
the bottom of the two-element stack. -/
theorem claim_C10_counterexample :
    evaluateExpression "5 - 2" = EvalResult.ok ⟨some 3, "none"⟩ ∧
    evaluateExpressionV "5 - 2" = EvalResult.ok ⟨some 5, "none"⟩ ∧
    evaluateExpression "5 - 2" ≠ evaluateExpressionV "5 - 2" := by
  decide

/-- Claim C10 as amended: the two variants agree on every input string that
contains no `-` character (the two tokenizers differ only in how they treat
`-`, and without a `-` token the unary-minus folding pass is the
identity). -/
theorem claim_C10 (s : String) (h : '-' ∉ s.data) :
    evaluateExpression s = evaluateExpressionV s := by
  have hm : ∀ c ∈ stripWS (mathPart (jsTrim s.data)), c ≠ '-' := by
    intro c hc heq
    subst heq
    exact h (mem_jsTrim (mem_mathPart (mem_stripWS hc)))
  have htok : tokenizeV (stripWS (mathPart (jsTrim s.data))) =
      tokenizeLib (stripWS (mathPart (jsTrim s.data))) :=
    tokenizeF_eq_of_no_minus _ _ hm
  have hnosub : Tok.sub ∉ tokenizeLib (stripWS (mathPart (jsTrim s.data))) :=
    tokenizeLibF_no_sub _ _ hm
  have hfold : foldUnary none (tokenizeV (stripWS (mathPart (jsTrim s.data)))) =
      tokenizeLib (stripWS (mathPart (jsTrim s.data))) := by
    rw [htok]
    exact foldUnary_no_sub _ _ hnosub
  show wrapResult (evaluateBasicMath (mathPart (jsTrim s.data))) _ =
    wrapResult (evaluateBasicMathV (mathPart (jsTrim s.data))) _
  rw [evaluateBasicMath, evaluateBasicMathV, postfixLib, postfixV, hfold]

/-- Witness for C10 (amended) at the concrete input `"2 + 3"`. -/
theorem claim_C10_witness :
    '-' ∉ ("2 + 3" : String).data ∧
    evaluateExpression "2 + 3" = evaluateExpressionV "2 + 3" :=
  ⟨by decide, claim_C10 "2 + 3" (by decide)⟩

/-- Claim C8: a dangling binary operator is rejected (`"2 +"` fails with
`InvalidExpression`), and more generally whenever the postfix evaluation of
the library evaluator's token queue executes an arithmetic operator with
fewer than two operands on the stack, `evaluateExpression` fails with
`InvalidExpression` rather than crashing or returning a value. -/
theorem claim_C8 :
    (∀ s : String,
        hasUnderflow (postfixLib (mathPart (jsTrim s.data))) [] = true →
        evaluateExpression s = EvalResult.invalidExpression) ∧
    evaluateExpression "2 +" = EvalResult.invalidExpression := by
  constructor
  · intro s hu
    obtain ⟨O, P, heq, hO, hP⟩ :=
      shunt_split (tokenizeLib (stripWS (mathPart (jsTrim s.data)))) [] [] (by simp)
    have heq' : postfixLib (mathPart (jsTrim s.data)) = O ++ P := by
      rw [postfixLib, heq]
      simp
    have hnj : ∀ x ∈ O ++ P, x ≠ Tok.junk := by
      intro x hx hxj
      subst hxj
      have hmem : Tok.junk ∈ shunt (tokenizeLib (stripWS (mathPart (jsTrim s.data)))) [] [] := by
        rw [heq]
        simpa using hx
      rcases shunt_mem _ _ _ _ hmem with h1 | h2 | h3
      · exact tokenizeLibF_no_junk _ _ h1
      · simp at h2
      · simp at h3
    have hO' : ∀ t ∈ O, t.isNum = true ∨ t.isArith = true := by
      intro x hx
      have hnl := (hO x hx).1
      have hnr := (hO x hx).2
      have hnjx : x ≠ Tok.junk := hnj x (List.mem_append.mpr (Or.inl hx))
      cases x with
      | num v s => exact Or.inl rfl
      | add => exact Or.inr rfl
      | sub => exact Or.inr rfl
      | mul => exact Or.inr rfl
      | div => exact Or.inr rfl
      | lparen => exact absurd rfl hnl
      | rparen => exact absurd rfl hnr
      | junk => exact absurd rfl hnjx
    have hP' : ∀ t ∈ P, t.isNum = false := fun x hx => (hP x hx).1
    rw [heq'] at hu
    rcases hu_A O P [] hO' hP' hu with hth | ⟨st', hdone, hbad⟩
    · show wrapResult (evaluateBasicMath _) _ = _
      rw [evaluateBasicMath, heq', hth]
      rfl
    · show wrapResult (evaluateBasicMath _) _ = _
      rw [evaluateBasicMath, heq', hdone]
      rcases hbad with rfl | hbot
      · rfl
      · dsimp only
        rw [show jsElem0 st' = none from by rw [jsElem0, hbot]]
        rfl
  · decide

/-- Witness for C8 at the concrete input `"2 +"`: its postfix queue `2 +`
underflows at the `+`. -/
theorem claim_C8_witness :
    hasUnderflow (postfixLib (mathPart (jsTrim (("2 +" : String)).data))) [] = true ∧
    evaluateExpression "2 +" = EvalResult.invalidExpression :=
  ⟨by decide, claim_C8.1 "2 +" (by decide)⟩

/-- Claim C7, counterexample: round-trip stability fails for negative
results.  `"0-3"` evaluates successfully to `-3` with unit `"none"`, but the
string form of that result, `(-3).toString() + "none" = "-3none"`, is
rejected with `InvalidExpression` (the library tokenizer has no signed
numbers and no unary-minus folding, so the leading `-` underflows the
stack). -/
theorem claim_C7_counterexample :
    evaluateExpression "0-3" = EvalResult.ok ⟨some (-3), "none"⟩ ∧
    evaluateExpression "-3none" = EvalResult.invalidExpression := by
  decide

/-- Claim C7 as amended: round-trip stability holds for successful results
whose value is a nonnegative number with a finite decimal representation
`m / 10 ^ k` (every value JavaScript renders without sign or exponent):
re-evaluating its decimal rendering concatenated with the returned unit
succeeds with the same value and unit.  For negative values the rendered
string is rejected (see the counterexample). -/
theorem claim_C7 (s u : String) (v : ℚ) (m k : ℕ)
    (hs : evaluateExpression s = EvalResult.ok ⟨some v, u⟩)
    (hv : v = (m : ℚ) / 10 ^ k) :
    evaluateExpression ((decChars m k).asString ++ u) = EvalResult.ok ⟨some v, u⟩ := by
  obtain ⟨hune, huc⟩ := success_unit_shape hs
  subst hv
  have hdata : (((decChars m k).asString ++ u) : String).data = decChars m k ++ u.data := by
    rw [String.data_append]
    rfl
  show evaluateExpressionL (((decChars m k).asString ++ u) : String).data = _
  rw [hdata, evaluateExpressionL]
  have hnows : ∀ c ∈ decChars m k ++ u.data, isJSWhitespace c = false := by
    intro c hc
    rcases List.mem_append.mp hc with hc1 | hc2
    · exact (decChars_chars m k c hc1).2
    · exact unit_not_ws (huc c hc2)
  have htrim : jsTrim (decChars m k ++ u.data) = decChars m k ++ u.data :=
    jsTrim_of_no_ws hnows
  obtain ⟨hrtake, hrdrop⟩ :=
    takeWhile_append_of_all (p := isUnitChar) (decChars m k).reverse
      (a := u.data.reverse)
      (fun c hc => huc c (List.mem_reverse.mp hc))
  have hrev : (decChars m k ++ u.data).reverse = u.data.reverse ++ (decChars m k).reverse := by
    rw [List.reverse_append]
  cases hDrev : (decChars m k).reverse with
  | nil => exact absurd (List.reverse_eq_nil_iff.mp hDrev) (decChars_ne_nil m k)
  | cons c' rest' =>
    have hc' : isUnitChar c' = false := by
      have : c' ∈ decChars m k := by
        rw [← List.mem_reverse, hDrev]
        exact List.mem_cons_self ..
      exact (decChars_chars m k c' this).1
    have hc'n : ¬isUnitChar c' = true := by
      rw [hc']
      exact Bool.false_ne_true
    have hunit : unitRun (decChars m k ++ u.data) = u.data := by
      rw [unitRun, hrev, hrtake, hDrev, List.takeWhile_cons_of_neg hc'n]
      simp
    have hmathp : mathPart (decChars m k ++ u.data) = decChars m k := by
      rw [mathPart, hrev, hrdrop, hDrev, List.dropWhile_cons_of_neg hc'n, ← hDrev]
      simp
    have hstrip : stripWS (decChars m k) = decChars m k := by
      rw [stripWS]
      refine List.filter_eq_self.mpr ?_
      intro c hc
      rw [(decChars_chars m k c hc).2]
      rfl
    have hmath : evaluateBasicMath (decChars m k) = some (some ((m : ℚ) / 10 ^ k)) := by
      rw [evaluateBasicMath, postfixLib, hstrip, tokenizeLib_decChars]
      rfl
    rw [htrim, hmathp, hunit, hmath]
    rw [wrapResult, unitName, if_neg hune, asString_data]

/-- Witness for C7 (amended) at the concrete input `"10px"` with
`v = 10 = 10 / 10 ^ 0`. -/
theorem claim_C7_witness :
    evaluateExpression "10px" = EvalResult.ok ⟨some 10, "px"⟩ ∧
    (10 : ℚ) = ((10 : ℕ) : ℚ) / 10 ^ (0 : ℕ) ∧
    evaluateExpression ((decChars 10 0).asString ++ "px") = EvalResult.ok ⟨some 10, "px"⟩ :=
  ⟨by decide, by norm_num,
    claim_C7 "10px" "px" 10 10 0 (by decide) (by norm_num)⟩

end RTW
